import Mathlib

/-!
Verification of the RIASEC classification engine and its batch pipeline
(`scripts/riasec_classifier.py` and `scripts/process_jobs.py`).

Python strings are embedded as `List Char`; Python floats are embedded as
exact rationals (`ℚ`) — every weight appearing in the scoring code
(3.0, 1.5, 1.0, 2.0, 0.6, 0.4, 10) is exactly representable, so the
rational model reproduces the arithmetic of the source.  Character case
folding is modelled for the ASCII range (all indicator phrases in the
loaded framework are ASCII).
-/

/-- Python strings are modelled as lists of characters. -/
abbrev PyStr := List Char

/-- Conversion from a Lean string literal to the embedded string type. -/
def pstr (s : String) : PyStr := s.toList

/-- Table of ASCII upper-case letters and their lower-case forms; backs the
model of Python `str.lower()` on the ASCII range. -/
def upperLower : List (Char × Char) :=
  [('A', 'a'), ('B', 'b'), ('C', 'c'), ('D', 'd'), ('E', 'e'), ('F', 'f'),
   ('G', 'g'), ('H', 'h'), ('I', 'i'), ('J', 'j'), ('K', 'k'), ('L', 'l'),
   ('M', 'm'), ('N', 'n'), ('O', 'o'), ('P', 'p'), ('Q', 'q'), ('R', 'r'),
   ('S', 's'), ('T', 't'), ('U', 'u'), ('V', 'v'), ('W', 'w'), ('X', 'x'),
   ('Y', 'y'), ('Z', 'z')]

/-- Table of ASCII lower-case letters and their upper-case forms; backs the
model of upper-casing inside Python `str.title()`. -/
def lowerUpper : List (Char × Char) := upperLower.map (fun p => (p.2, p.1))

/-- Model of Python `str.lower()` on one character (ASCII case folding). -/
def pyLowerChar (c : Char) : Char := ((upperLower.lookup c).getD c)

/-- Model of upper-casing one character inside `str.title()` (ASCII). -/
def pyUpperChar (c : Char) : Char := ((lowerUpper.lookup c).getD c)

/-- Model of Python `str.lower()`: `text.lower()` in `normalize_text` and in
the indicator matching loops of `calculate_riasec_scores`. -/
def pyLower (l : PyStr) : PyStr := l.map pyLowerChar

/-- The separator characters replaced by a space in `normalize_text`
(the regex character class in the source). -/
def sepChars : List Char := ['-', '_', '/', '\\', '.', ',', ';', ':', '|']

/-- Whether a character is one of the separators of `normalize_text`. -/
def isSepB (c : Char) : Bool := sepChars.contains c

/-- Whitespace characters recognised by the whitespace class of the regular
expressions in `normalize_text` and by `str.strip()` (ASCII whitespace plus
the Unicode whitespace code points). -/
def wsChars : List Char :=
  [' ', '\t', '\n', '\r', '\x0b', '\x0c', '\x1c', '\x1d', '\x1e', '\x1f',
   '\x85', '\xa0', ' ', ' ', ' ', ' ', ' ',
   ' ', ' ', ' ', ' ', ' ', ' ', ' ',
   ' ', ' ', ' ', ' ', '　']

/-- Whether a character is whitespace in the sense of the source's regexes
and `str.strip()`. -/
def isWsB (c : Char) : Bool := wsChars.contains c

/-- Replacing each separator character with a single space: the first
substitution in `normalize_text`. -/
def sepSub (l : PyStr) : PyStr := l.map (fun c => if isSepB c then ' ' else c)

/-- Worker for the second substitution of `normalize_text`: the flag says
whether the scan is inside a whitespace run whose single replacement space
was already emitted. -/
def wsCollapseGo : Bool → PyStr → PyStr
  | _, [] => []
  | inRun, c :: cs =>
    if isWsB c then
      if inRun then wsCollapseGo true cs else ' ' :: wsCollapseGo true cs
    else c :: wsCollapseGo false cs

/-- Model of the second substitution of `normalize_text`: each maximal run
of whitespace characters is replaced by one space. -/
def wsCollapse (l : PyStr) : PyStr := wsCollapseGo false l

/-- Model of Python `str.strip()`: remove leading and trailing whitespace. -/
def pyStrip (l : PyStr) : PyStr :=
  ((l.dropWhile (fun d => isWsB d)).reverse.dropWhile (fun d => isWsB d)).reverse

/-- Embedding of `normalize_text` (`riasec_classifier.py`): empty input maps
to the empty string, otherwise lower-case, replace separators by spaces,
collapse whitespace runs to a single space and strip. -/
def normalize_text (text : PyStr) : PyStr :=
  if text = [] then []
  else pyStrip (wsCollapse (sepSub (pyLower text)))

/-- Model of Python `needle.startswith` / prefix testing used to realise
substring search below. -/
def isPrefixB : PyStr → PyStr → Bool
  | [], _ => true
  | _ :: _, [] => false
  | a :: as, b :: bs => a == b && isPrefixB as bs

/-- Model of the Python substring test `needle in hay`. -/
def isSubstrB (needle : PyStr) : PyStr → Bool
  | [] => needle.isEmpty
  | b :: bs => isPrefixB needle (b :: bs) || isSubstrB needle bs

/-- Leftmost split of `l` at the separator `sep`: returns the part before
the first occurrence of `sep` and the part after it, or `none` when `sep`
does not occur.  Backs the models of Python `str.split`. -/
def findSplit (sep : PyStr) : PyStr → Option (PyStr × PyStr)
  | [] => none
  | c :: t =>
    if isPrefixB sep (c :: t) then some ([], (c :: t).drop sep.length)
    else (findSplit sep t).map (fun p => (c :: p.1, p.2))

/-- Model of Python `s.split(sep)[-1]`: the suffix after the last
occurrence of `sep` found by the left-to-right scan.  `fuel` bounds the
recursion; callers pass the length of the string, which suffices because
the separators used in the source are non-empty. -/
def afterLastSep (sep : PyStr) : PyStr → Nat → PyStr
  | l, 0 => l
  | l, fuel + 1 =>
    match findSplit sep l with
    | none => l
    | some p => afterLastSep sep p.2 fuel

/-- Model of Python `s.split(sep)[0]`: the prefix before the first
occurrence of `sep` (the whole string when `sep` does not occur). -/
def beforeFirstSep (sep : PyStr) (l : PyStr) : PyStr :=
  match findSplit sep l with
  | none => l
  | some p => p.1

/-- Whether a character is an ASCII letter; used by the model of
`str.title()`. -/
def isAsciiAlphaB (c : Char) : Bool :=
  (upperLower.lookup c).isSome || (lowerUpper.lookup c).isSome

/-- Worker for the model of Python `str.title()`: the flag records whether
the previous character was a letter. -/
def pyTitleGo : Bool → PyStr → PyStr
  | _, [] => []
  | prevAlpha, c :: cs =>
    if isAsciiAlphaB c then
      (if prevAlpha then pyLowerChar c else pyUpperChar c) :: pyTitleGo true cs
    else c :: pyTitleGo false cs

/-- Model of Python `str.title()` (ASCII): the first letter of every
letter-run is upper-cased and the following letters are lower-cased. -/
def pyTitle (l : PyStr) : PyStr := pyTitleGo false l

/-- Whether a character is an ASCII digit, the class of the trailing-id
regex in the title extraction. -/
def isDigitB (c : Char) : Bool := decide ('0' ≤ c) && decide (c ≤ '9')

/-- Model of `re.sub` with the trailing-id pattern in the title extraction:
remove a final hyphen-plus-digits suffix when present. -/
def stripTrailingId (l : PyStr) : PyStr :=
  let r := l.reverse
  let ds := r.takeWhile isDigitB
  if ds ≠ [] ∧ (r.drop ds.length).head? = some '-' then
    (r.drop (ds.length + 1)).reverse
  else l

/-- Embedding of `extract_title_from_url` (`riasec_classifier.py`): pull a
human-readable title out of a job URL, returning the empty string when the
URL lacks the fixed marker. -/
def extract_title_from_url (job_link : PyStr) : PyStr :=
  if job_link = [] then []
  else if isSubstrB (pstr ("/view/")) job_link then
    let path := afterLastSep (pstr ("/view/")) job_link job_link.length
    let path := stripTrailingId path
    let path :=
      if isSubstrB (pstr ("-at-")) path then beforeFirstSep (pstr ("-at-")) path
      else path
    pyTitle (pyStrip (path.map (fun c => if c = '-' then ' ' else c)))
  else []

/-- Embedding of `extract_title_from_link` (`process_jobs.py`); its body is
the same algorithm as `extract_title_from_url`. -/
def extract_title_from_link (job_link : PyStr) : PyStr :=
  if job_link = [] then []
  else if isSubstrB (pstr ("/view/")) job_link then
    let path := afterLastSep (pstr ("/view/")) job_link job_link.length
    let path := stripTrailingId path
    let path :=
      if isSubstrB (pstr ("-at-")) path then beforeFirstSep (pstr ("-at-")) path
      else path
    pyTitle (pyStrip (path.map (fun c => if c = '-' then ' ' else c)))
  else []

/-- One RIASEC category of the indicator framework: the `name` and `title`
strings, the `skill_indicators.strong` and `skill_indicators.moderate`
phrase lists, and the optional `keywords` list (absent — hence empty — in
the embedded fallback framework). -/
structure RiasecType where
  name : PyStr
  display_title : PyStr
  strong : List PyStr
  moderate : List PyStr
  keywords : List PyStr
deriving DecidableEq

/-- One entry of the `combinations` table: the description and gift texts
for a 3-letter code. -/
structure ComboInfo where
  description : PyStr
  gift : PyStr
deriving DecidableEq

/-- The loaded framework: `riasec_types` as an insertion-ordered list of
letter/category pairs (a Python dict preserves insertion order) and the
`combinations` table. -/
structure Framework where
  riasec_types : List (Char × RiasecType)
  combinations : List (PyStr × ComboInfo)
/-- Category R of the embedded fallback framework
(`get_embedded_framework` in `riasec_classifier.py`). -/
def embR : RiasecType :=
  { name := pstr ("Realistic"), display_title := pstr ("The Doers"),
    strong := [pstr ("maintenance"), pstr ("repair"), pstr ("construction"), pstr ("welding"), pstr ("plumbing"), pstr ("electrical"), pstr ("HVAC"), pstr ("carpentry"), pstr ("machinery"), pstr ("forklift"), pstr ("CDL"), pstr ("truck driving"), pstr ("warehouse"), pstr ("manufacturing"), pstr ("assembly"), pstr ("installation"), pstr ("mechanical"), pstr ("automotive"), pstr ("diesel"), pstr ("landscaping"), pstr ("farming"), pstr ("firefighting"), pstr ("EMT"), pstr ("CPR"), pstr ("BLS")],
    moderate := [pstr ("hands-on"), pstr ("technical"), pstr ("field work"), pstr ("troubleshooting"), pstr ("inspection"), pstr ("quality control"), pstr ("building"), pstr ("fixing")],
    keywords := [] }

/-- Category I of the embedded fallback framework
(`get_embedded_framework` in `riasec_classifier.py`). -/
def embI : RiasecType :=
  { name := pstr ("Investigative"), display_title := pstr ("The Thinkers"),
    strong := [pstr ("research"), pstr ("analysis"), pstr ("data analysis"), pstr ("statistics"), pstr ("analytics"), pstr ("programming"), pstr ("software development"), pstr ("Python"), pstr ("Java"), pstr ("JavaScript"), pstr ("SQL"), pstr ("machine learning"), pstr ("AI"), pstr ("data science"), pstr ("algorithms"), pstr ("debugging"), pstr ("laboratory"), pstr ("clinical research"), pstr ("diagnosis"), pstr ("engineering"), pstr ("mathematics"), pstr ("physics"), pstr ("chemistry"), pstr ("biology")],
    moderate := [pstr ("problem-solving"), pstr ("critical thinking"), pstr ("investigation"), pstr ("evaluation"), pstr ("assessment"), pstr ("documentation"), pstr ("technical writing"), pstr ("analytical")],
    keywords := [] }

/-- Category A of the embedded fallback framework
(`get_embedded_framework` in `riasec_classifier.py`). -/
def embA : RiasecType :=
  { name := pstr ("Artistic"), display_title := pstr ("The Creators"),
    strong := [pstr ("graphic design"), pstr ("UI design"), pstr ("UX design"), pstr ("visual design"), pstr ("web design"), pstr ("illustration"), pstr ("photography"), pstr ("videography"), pstr ("video editing"), pstr ("animation"), pstr ("creative writing"), pstr ("copywriting"), pstr ("content creation"), pstr ("music"), pstr ("acting"), pstr ("dance"), pstr ("fashion design"), pstr ("interior design"), pstr ("Adobe"), pstr ("Photoshop"), pstr ("Illustrator"), pstr ("Figma"), pstr ("art direction")],
    moderate := [pstr ("creative"), pstr ("innovative"), pstr ("artistic"), pstr ("aesthetic"), pstr ("visual"), pstr ("media"), pstr ("content"), pstr ("brand"), pstr ("design")],
    keywords := [] }

/-- Category S of the embedded fallback framework
(`get_embedded_framework` in `riasec_classifier.py`). -/
def embS : RiasecType :=
  { name := pstr ("Social"), display_title := pstr ("The Helpers"),
    strong := [pstr ("teaching"), pstr ("education"), pstr ("training"), pstr ("nursing"), pstr ("patient care"), pstr ("caregiving"), pstr ("home health"), pstr ("counseling"), pstr ("therapy"), pstr ("psychology"), pstr ("social work"), pstr ("case management"), pstr ("customer service"), pstr ("customer support"), pstr ("coaching"), pstr ("mentoring"), pstr ("healthcare"), pstr ("medical"), pstr ("clinical"), pstr ("pediatric"), pstr ("geriatric"), pstr ("special education")],
    moderate := [pstr ("communication"), pstr ("interpersonal"), pstr ("empathy"), pstr ("listening"), pstr ("teamwork"), pstr ("collaboration"), pstr ("support"), pstr ("helping"), pstr ("service")],
    keywords := [] }

/-- Category E of the embedded fallback framework
(`get_embedded_framework` in `riasec_classifier.py`). -/
def embE : RiasecType :=
  { name := pstr ("Enterprising"), display_title := pstr ("The Persuaders"),
    strong := [pstr ("sales"), pstr ("business development"), pstr ("account management"), pstr ("management"), pstr ("leadership"), pstr ("executive"), pstr ("director"), pstr ("supervisor"), pstr ("marketing"), pstr ("advertising"), pstr ("public relations"), pstr ("entrepreneurship"), pstr ("negotiation"), pstr ("persuasion"), pstr ("recruiting"), pstr ("real estate"), pstr ("project management"), pstr ("operations management")],
    moderate := [pstr ("strategic"), pstr ("competitive"), pstr ("goal-oriented"), pstr ("results-driven"), pstr ("influencing"), pstr ("presenting"), pstr ("pitching"), pstr ("networking"), pstr ("business")],
    keywords := [] }

/-- Category C of the embedded fallback framework
(`get_embedded_framework` in `riasec_classifier.py`). -/
def embC : RiasecType :=
  { name := pstr ("Conventional"), display_title := pstr ("The Organizers"),
    strong := [pstr ("accounting"), pstr ("bookkeeping"), pstr ("auditing"), pstr ("tax preparation"), pstr ("payroll"), pstr ("administrative"), pstr ("clerical"), pstr ("data entry"), pstr ("filing"), pstr ("records management"), pstr ("scheduling"), pstr ("compliance"), pstr ("regulatory"), pstr ("inventory management"), pstr ("logistics"), pstr ("supply chain"), pstr ("billing"), pstr ("invoicing"), pstr ("Microsoft Office"), pstr ("Excel"), pstr ("QuickBooks"), pstr ("SAP")],
    moderate := [pstr ("organized"), pstr ("detail-oriented"), pstr ("systematic"), pstr ("accurate"), pstr ("precise"), pstr ("process"), pstr ("procedure"), pstr ("documentation"), pstr ("reporting")],
    keywords := [] }
/-- The framework loaded at module import.  The repository contains no
`data/riasec_framework.json`, so `load_framework` falls back to
`get_embedded_framework`; its `combinations` key is the empty table. -/
def FRAMEWORK : Framework :=
  { riasec_types :=
      [('R', embR), ('I', embI), ('A', embA), ('S', embS), ('E', embE), ('C', embC)],
    combinations := [] }

/-- The scoring weights of `riasec_classifier.py`. -/
def STRONG_INDICATOR_WEIGHT : ℚ := 3

/-- Weight of a moderate indicator match. -/
def MODERATE_INDICATOR_WEIGHT : ℚ := 3 / 2

/-- Weight of a keyword match. -/
def KEYWORD_WEIGHT : ℚ := 1

/-- Extra weight for a job-title match of a strong indicator. -/
def TITLE_BONUS_WEIGHT : ℚ := 2

/-- Body of the strong-indicator loop of `calculate_riasec_scores`: when the
lowered phrase occurs in the combined text, add the strong weight (plus the
title bonus when it also occurs in the title text) and record the trace
entry `skill(+3.0)`. -/
def strongStep (combined title_text : PyStr) (acc : ℚ × List PyStr)
    (skill : PyStr) : ℚ × List PyStr :=
  let skill_lower := pyLower skill
  if isSubstrB skill_lower combined then
    (acc.1 + STRONG_INDICATOR_WEIGHT
        + (if isSubstrB skill_lower title_text then TITLE_BONUS_WEIGHT else 0),
     acc.2 ++ [skill ++ pstr ("(+3.0)")])
  else acc

/-- Body of the moderate-indicator loop of `calculate_riasec_scores`: a
phrase occurring in the combined text is only counted when its lowered form
is not a substring of any already-recorded match entry of the category. -/
def moderateStep (combined : PyStr) (acc : ℚ × List PyStr)
    (skill : PyStr) : ℚ × List PyStr :=
  let skill_lower := pyLower skill
  if isSubstrB skill_lower combined then
    if acc.2.any (fun m => isSubstrB skill_lower (pyLower m)) then acc
    else (acc.1 + MODERATE_INDICATOR_WEIGHT, acc.2 ++ [skill ++ pstr ("(+1.5)")])
  else acc

/-- Body of the keyword loop of `calculate_riasec_scores`: a keyword is only
counted when it is absent, as a list element, from the lowered strong and
moderate indicator lists of the category. -/
def keywordStep (combined : PyStr) (strong moderate : List PyStr)
    (acc : ℚ × List PyStr) (keyword : PyStr) : ℚ × List PyStr :=
  let keyword_lower := pyLower keyword
  if isSubstrB keyword_lower combined
      ∧ ¬ (strong.map pyLower).contains keyword_lower
      ∧ ¬ (moderate.map pyLower).contains keyword_lower then
    (acc.1 + KEYWORD_WEIGHT, acc.2 ++ [keyword ++ pstr ("(+1.0)")])
  else acc

/-- The per-category part of `calculate_riasec_scores`: the three indicator
loops run in tier order over the category's accumulator. -/
def scoreCategory (combined title_text : PyStr) (init : ℚ × List PyStr)
    (td : RiasecType) : ℚ × List PyStr :=
  let s1 := td.strong.foldl (strongStep combined title_text) init
  let s2 := td.moderate.foldl (moderateStep combined) s1
  td.keywords.foldl (keywordStep combined td.strong td.moderate) s2

/-- Embedding of `calculate_riasec_scores`: the scores dict and the matched
trace dict are modelled as functions from letters; both start at zero/empty
for every letter and the category loop updates the entry of each framework
letter in turn. -/
def calculate_riasec_scores (fw : Framework) (skills_text job_title : PyStr) :
    (Char → ℚ) × (Char → List PyStr) :=
  let combined_text := normalize_text (job_title ++ [' '] ++ skills_text)
  let title_text := normalize_text job_title
  fw.riasec_types.foldl
    (fun acc p =>
      let r := scoreCategory combined_text title_text (acc.1 p.1, acc.2 p.1) p.2
      ((fun c => if c = p.1 then r.1 else acc.1 c),
       (fun c => if c = p.1 then r.2 else acc.2 c)))
    ((fun _ => 0), (fun _ => []))

/-- The fixed letter alphabet: iteration order of the `scores` dict, which
is initialised by a comprehension over the string `RIASEC`. -/
def riasecString : List Char := ['R', 'I', 'A', 'S', 'E', 'C']

/-- The `scores.items()` view: the six letter/score pairs in dict insertion
order. -/
def riasecPairs (scores : Char → ℚ) : List (Char × ℚ) :=
  riasecString.map (fun c => (c, scores c))

/-- Stable insertion of a pair into a list sorted by score descending: the
inserted element goes after every strictly greater score and before every
equal one, which is exactly the stability contract of Python `sorted` with
`reverse=True`. -/
def insertDesc (p : Char × ℚ) : List (Char × ℚ) → List (Char × ℚ)
  | [] => [p]
  | q :: qs => if p.2 < q.2 then q :: insertDesc p qs else p :: q :: qs

/-- Model of `sorted(scores.items(), key=lambda x: x[1], reverse=True)`:
a stable descending sort by score. -/
def sortPairsDesc (l : List (Char × ℚ)) : List (Char × ℚ) :=
  l.foldr insertDesc []

/-- Embedding of `determine_riasec_code`: take up to three letters with
strictly positive score from the sorted pairs, fill with the remaining
letters in sorted order, and keep the first three. -/
def determine_riasec_code (scores : Char → ℚ) : PyStr :=
  let sorted_scores := sortPairsDesc (riasecPairs scores)
  let top_3 :=
    ((sorted_scores.filter (fun p => decide (0 < p.2))).take 3).map Prod.fst
  let remaining :=
    (sorted_scores.map Prod.fst).filter (fun c => ! top_3.contains c)
  (top_3 ++ remaining.take (3 - top_3.length)).take 3

/-- Stable insertion for the descending sort of the plain score values used
by `calculate_confidence`. -/
def insertQDesc (x : ℚ) : List ℚ → List ℚ
  | [] => [x]
  | q :: qs => if x < q then q :: insertQDesc x qs else x :: q :: qs

/-- Model of `sorted(scores.values(), reverse=True)`. -/
def sortQDesc (l : List ℚ) : List ℚ := l.foldr insertQDesc []

/-- Embedding of `calculate_confidence`: zero total evidence yields zero,
otherwise the dominance/evidence blend capped at one. -/
def calculate_confidence (scores : Char → ℚ) : ℚ :=
  let total_score := (riasecString.map scores).sum
  if total_score = 0 then 0
  else
    let sorted_scores := sortQDesc (riasecString.map scores)
    let top_score := sorted_scores.headD 0
    let dominance := top_score / total_score
    let evidence_factor := min (total_score / 10) 1
    let confidence := dominance * 0.6 + evidence_factor * 0.4
    min confidence 1

/-- Model of Python `round(x, 3)` on the exact rational grid: round to the
nearest multiple of `1/1000`, ties to the even multiple. -/
def pyRound3 (x : ℚ) : ℚ :=
  let y := x * 1000
  let f : ℤ := Int.floor y
  let r : ℚ := y - f
  let n : ℤ :=
    if r < 1 / 2 then f
    else if 1 / 2 < r then f + 1
    else if f % 2 = 0 then f else f + 1
  (n : ℚ) / 1000

/-- The dictionary returned by `classify_job`, with its dynamic keys made
into fixed fields. -/
structure ClassifyResult where
  riasec_code : PyStr
  primary_type : PyStr
  scores : Char → ℚ
  confidence : ℚ
  total_score : ℚ
  description : PyStr
  gift : PyStr
  matched_indicators : Char → List PyStr

/-- Embedding of `classify_job`: derive a title from the link when none is
given, score, determine the code and the rounded confidence, and look up
the combination texts. -/
def classify_job (fw : Framework) (skills_text job_title job_link : PyStr) :
    ClassifyResult :=
  let job_title := if job_title = [] ∧ job_link ≠ [] then
      extract_title_from_url job_link
    else job_title
  let sm := calculate_riasec_scores fw skills_text job_title
  let riasec_code := determine_riasec_code sm.1
  let confidence := calculate_confidence sm.1
  let combo := fw.combinations.lookup riasec_code
  let description := match combo with
    | some ci => ci.description
    | none => pstr ("No description available")
  let gift := match combo with
    | some ci => ci.gift
    | none => []
  let primary_letter := riasec_code.headD 'I'
  let primary_type := match (fw.riasec_types.lookup primary_letter) with
    | some td => td.name
    | none => pstr ("Unknown")
  { riasec_code := riasec_code,
    primary_type := primary_type,
    scores := sm.1,
    confidence := pyRound3 confidence,
    total_score := (riasecString.map sm.1).sum,
    description := description,
    gift := gift,
    matched_indicators := sm.2 }

/-- A cell value of a tabular row: a string column or a numeric column. -/
inductive Value where
  | vs (s : PyStr)
  | vq (q : ℚ)
deriving DecidableEq

/-- A table row, modelled as an insertion-ordered association list from
column names to values (the shape of the Python dicts that the pipeline
accumulates). -/
abbrev TblRow := List (PyStr × Value)

/-- String content of a cell (the selected columns of the pipeline hold
strings). -/
def valueToStr : Value → PyStr
  | .vs s => s
  | .vq _ => []

/-- One selected source tuple of the single-source pipeline: the link
column, the skills column, and the title column when one was requested. -/
abbrev BatchTuple := PyStr × PyStr × Option PyStr

/-- The per-tuple body of `process_batch` (`process_jobs.py`): unpack the
tuple, derive a title from the link when the source has no title column,
classify, and build the fixed output row. -/
def batchRow (has_title : Bool) (row : BatchTuple) : TblRow :=
  let job_link := row.1
  let job_skills := row.2.1
  let job_title :=
    if has_title then (row.2.2.getD []) else extract_title_from_link job_link
  let skills := if job_skills = [] then [] else job_skills
  let title := if job_title = [] then [] else job_title
  let c := classify_job FRAMEWORK skills title job_link
  [(pstr ("job_link"), Value.vs job_link),
   (pstr ("job_skills"), Value.vs job_skills),
   (pstr ("extracted_title"), Value.vs title),
   (pstr ("riasec_code"), Value.vs c.riasec_code),
   (pstr ("riasec_confidence"), Value.vq c.confidence),
   (pstr ("primary_riasec_type"), Value.vs c.primary_type),
   (pstr ("riasec_total_score"), Value.vq c.total_score)]

/-- Embedding of `process_batch`: classify every tuple of the batch in
order. -/
def process_batch (batch : List BatchTuple) (has_title : Bool) : List TblRow :=
  batch.map (batchRow has_title)

/-- The batch loop of `process_csv_file`: starting from offset `processed`,
repeatedly read a window of at most `batch_size` rows, classify it, and
advance the offset by the number of rows actually read.  `fuel` bounds the
number of iterations; the callers pass `total` which suffices whenever the
window size is positive (with window size `0` the Python loop would not
terminate). -/
def pipelineLoop (rows : List BatchTuple) (has_title : Bool)
    (total batch_size : Nat) : Nat → Nat → List TblRow
  | _, 0 => []
  | processed, fuel + 1 =>
    if processed < total then
      let limit := min batch_size (total - processed)
      let batch := (rows.drop processed).take limit
      process_batch batch has_title
        ++ pipelineLoop rows has_title total batch_size
          (processed + batch.length) fuel
    else []

/-- Outcome of one pipeline run: what reached the destination (`none` when
nothing was written) and whether the run ended in an error. -/
structure PipeRun where
  written : Option (List TblRow)
  errored : Bool
deriving DecidableEq

/-- Embedding of `process_csv_file` (`process_jobs.py`).  A missing source
makes the initial `COUNT(*)` query raise, before any window is read and
before anything is written.  Otherwise the windowed loop runs, the full
result set is written to the destination, and the subsequent reporting
step fails precisely when the result set is empty: an empty DataFrame has
no `riasec_code` column, so the distribution query raises `KeyError` —
after the write. -/
def process_csv_file (source : Option (List BatchTuple)) (has_title : Bool)
    (batch_size : Nat) (sample_size : Option Nat) : PipeRun :=
  match source with
  | none => { written := none, errored := true }
  | some rows =>
    let total_rows := match sample_size with
      | some s => min rows.length s
      | none => rows.length
    let results := pipelineLoop rows has_title total_rows batch_size 0 total_rows
    { written := some results, errored := results.isEmpty }

/-- The single-source entry path of `process_jobs.py` with the default
column names: select the `job_link` and `job_skills` columns from the
source table and run `process_csv_file` without a title column. -/
def selectDefaultCols (table : List TblRow) : List BatchTuple :=
  table.map (fun r =>
    (valueToStr ((r.lookup (pstr ("job_link"))).getD (Value.vs [])),
     valueToStr ((r.lookup (pstr ("job_skills"))).getD (Value.vs [])),
     none))

/-- Single-source pipeline run over a source table (the `--input` mode of
`process_jobs.py` with default options). -/
def run_single_source (table : List TblRow) (batch_size : Nat)
    (sample_size : Option Nat) : PipeRun :=
  process_csv_file (some (selectDefaultCols table)) false batch_size sample_size

/-- The top category's score: the maximum of the six per-letter scores
(spec-side description of `sorted(scores.values(), reverse=True)[0]`). -/
def topScore (scores : Char → ℚ) : ℚ :=
  max (scores 'R') (max (scores 'I') (max (scores 'A')
    (max (scores 'S') (max (scores 'E') (scores 'C')))))

/-- Position of a letter in the fixed alphabet `R,I,A,S,E,C`. -/
def alphaIdx (c : Char) : Nat := riasecString.indexOf c

/-- The spec-side ordering of `determine_riasec_code`: a pair comes before
another when its score is strictly larger, or the scores tie and its letter
comes earlier in the fixed alphabet. -/
def pairBefore (p q : Char × ℚ) : Prop :=
  q.2 < p.2 ∨ (p.2 = q.2 ∧ alphaIdx p.1 < alphaIdx q.1)

/-- The columns of every output row of the single-source pipeline. -/
def outputColumns : List PyStr :=
  [pstr ("job_link"), pstr ("job_skills"), pstr ("extracted_title"),
   pstr ("riasec_code"), pstr ("riasec_confidence"),
   pstr ("primary_riasec_type"), pstr ("riasec_total_score")]

/-- A character of a canonical (normalized) string: fixed under
lower-casing, not a separator, and a plain space if whitespace at all. -/
def cleanCharB (c : Char) : Bool :=
  (pyLowerChar c == c) && (! isSepB c) && ((! isWsB c) || c == ' ')

/-- Adjacent whitespace freedom, the relation underlying the collapse
invariant of `normalize_text`. -/
def notBothWs (a b : Char) : Prop := ¬ (isWsB a = true ∧ isWsB b = true)

lemma insertDesc_perm (p : Char × ℚ) (l : List (Char × ℚ)) :
    (insertDesc p l).Perm (p :: l) := by
  induction l with
  | nil => exact List.Perm.refl _
  | cons q qs ih =>
    rw [insertDesc]
    by_cases h : p.2 < q.2
    · rw [if_pos h]
      exact (ih.cons q).trans (List.Perm.swap _ _ _)
    · rw [if_neg h]

lemma sortPairsDesc_perm (l : List (Char × ℚ)) : (sortPairsDesc l).Perm l := by
  induction l with
  | nil => exact List.Perm.refl _
  | cons a as ih =>
    exact (insertDesc_perm a (sortPairsDesc as)).trans (ih.cons a)

lemma mem_insertDesc {x p : Char × ℚ} {l : List (Char × ℚ)}
    (h : x ∈ insertDesc p l) : x = p ∨ x ∈ l := by
  have := (insertDesc_perm p l).mem_iff.mp h
  simpa using this

lemma insertDesc_pairwise {p : Char × ℚ} :
    ∀ {l : List (Char × ℚ)}, List.Pairwise pairBefore l →
      (∀ q ∈ l, alphaIdx p.1 < alphaIdx q.1) →
      List.Pairwise pairBefore (insertDesc p l) := by
  intro l
  induction l with
  | nil =>
    intro _ _
    simp [insertDesc]
  | cons q qs ih =>
    intro hl hp
    rw [insertDesc]
    by_cases h : p.2 < q.2
    · rw [if_pos h]
      refine List.Pairwise.cons ?_ (ih hl.of_cons (fun x hx => hp x (List.mem_cons_of_mem _ hx)))
      intro x hx
      rcases mem_insertDesc hx with rfl | hx
      · exact Or.inl h
      · exact (List.pairwise_cons.mp hl).1 x hx
    · rw [if_neg h]
      refine List.Pairwise.cons ?_ hl
      intro x hx
      have hq : q.2 ≤ p.2 := le_of_not_lt h
      rcases List.mem_cons.mp hx with rfl | hx
      · rcases lt_or_eq_of_le hq with h1 | h1
        · exact Or.inl h1
        · exact Or.inr ⟨h1.symm, hp x (List.mem_cons_self _ _)⟩
      · have hqx := (List.pairwise_cons.mp hl).1 x hx
        rcases hqx with h2 | h2
        · exact Or.inl (lt_of_lt_of_le h2 hq)
        · rcases lt_or_eq_of_le hq with h1 | h1
          · exact Or.inl (h2.1 ▸ h1)
          · exact Or.inr ⟨h1.symm.trans h2.1, hp x (List.mem_cons_of_mem _ hx)⟩

lemma sortPairsDesc_pairwise :
    ∀ {l : List (Char × ℚ)},
      List.Pairwise (fun p q => alphaIdx p.1 < alphaIdx q.1) l →
      List.Pairwise pairBefore (sortPairsDesc l) := by
  intro l
  induction l with
  | nil => intro _; simp [sortPairsDesc]
  | cons a as ih =>
    intro hl
    have step : sortPairsDesc (a :: as) = insertDesc a (sortPairsDesc as) := rfl
    rw [step]
    refine insertDesc_pairwise (ih hl.of_cons) ?_
    intro q hq
    have hm : q ∈ as := (sortPairsDesc_perm as).mem_iff.mp hq
    exact (List.pairwise_cons.mp hl).1 q hm

lemma riasecPairs_pairwise (scores : Char → ℚ) :
    List.Pairwise (fun p q : Char × ℚ => alphaIdx p.1 < alphaIdx q.1)
      (riasecPairs scores) := by
  have base : List.Pairwise (fun a b : Char => alphaIdx a < alphaIdx b) riasecString := by
    decide
  rw [riasecPairs, List.pairwise_map]
  exact base

/-- Claim C3: `determine_riasec_code` orders the six letter/score pairs by
score descending, breaking ties by the fixed alphabet order `R,I,A,S,E,C`
(the sorted list is a permutation of the pairs and is strictly ordered by
`pairBefore`), and when all six scores are zero the returned code is
exactly `RIA`, for every scores function. -/
theorem c3_sort_stable_and_zero_default (scores : Char → ℚ) :
    (sortPairsDesc (riasecPairs scores)).Perm (riasecPairs scores)
    ∧ List.Pairwise pairBefore (sortPairsDesc (riasecPairs scores))
    ∧ ((∀ c, scores c = 0) → determine_riasec_code scores = pstr ("RIA")) := by
  refine ⟨sortPairsDesc_perm _, sortPairsDesc_pairwise (riasecPairs_pairwise scores), ?_⟩
  intro h
  have hs : scores = fun _ => 0 := funext h
  rw [hs]
  decide

/-- Witness for C3 at the all-zero score vector. -/
theorem c3_witness : determine_riasec_code (fun _ => 0) = pstr ("RIA") :=
  (c3_sort_stable_and_zero_default (fun _ => 0)).2.2 (fun _ => rfl)

lemma filter_length_split (p : Char → Bool) (l : List Char) :
    (l.filter p).length + (l.filter (fun c => ! p c)).length = l.length := by
  induction l with
  | nil => rfl
  | cons a t ih =>
    by_cases h : p a = true <;> simp [List.filter_cons, h] <;> omega

lemma determine_code_spec (scores : Char → ℚ) :
    (determine_riasec_code scores).length = 3
    ∧ ∀ c ∈ determine_riasec_code scores, c ∈ riasecString := by
  have hperm := sortPairsDesc_perm (riasecPairs scores)
  set sorted := sortPairsDesc (riasecPairs scores) with hsorted
  have hletters : (sorted.map Prod.fst).Perm riasecString := by
    have h1 := hperm.map Prod.fst
    have h2 : (riasecPairs scores).map Prod.fst = riasecString := rfl
    rwa [h2] at h1
  have hnodup : (sorted.map Prod.fst).Nodup :=
    hletters.nodup_iff.mpr (by decide)
  have hlen6 : (sorted.map Prod.fst).length = 6 := by
    rw [hletters.length_eq]
    rfl
  set top_3 := ((sorted.filter (fun p => decide (0 < p.2))).take 3).map Prod.fst
    with ht3
  have ht3len : top_3.length ≤ 3 := by
    rw [ht3, List.length_map, List.length_take]
    exact Nat.min_le_left _ _
  have ht3sub : ∀ c ∈ top_3, c ∈ sorted.map Prod.fst := by
    intro c hc
    rw [ht3] at hc
    rcases List.mem_map.mp hc with ⟨p, hp, rfl⟩
    exact List.mem_map_of_mem _
      (List.mem_of_mem_filter (List.mem_of_mem_take hp))
  set remaining := (sorted.map Prod.fst).filter (fun c => ! top_3.contains c)
    with hrem
  have hremlen : 3 - top_3.length ≤ remaining.length := by
    have hin : ((sorted.map Prod.fst).filter (fun c => top_3.contains c)).length
        ≤ top_3.length := by
      have hsub : ((sorted.map Prod.fst).filter (fun c => top_3.contains c))
          ⊆ top_3 := by
        intro c hc
        have hmem := List.of_mem_filter hc
        exact List.elem_iff.mp hmem
      exact ((hnodup.filter _).subperm hsub).length_le
    have hsplit := filter_length_split (fun c => top_3.contains c)
      (sorted.map Prod.fst)
    rw [hlen6] at hsplit
    rw [← hrem] at hsplit
    omega
  have hcode : determine_riasec_code scores
      = (top_3 ++ remaining.take (3 - top_3.length)).take 3 := rfl
  constructor
  · rw [hcode, List.length_take, List.length_append, List.length_take]
    omega
  · intro c hc
    rw [hcode] at hc
    rcases List.mem_append.mp (List.mem_of_mem_take hc) with h | h
    · exact hletters.subset (ht3sub c h)
    · exact hletters.subset (List.mem_of_mem_filter (List.mem_of_mem_take h))

/-- Claim C1: for every framework whose category letters lie in the fixed
alphabet and all skill/title/link inputs, the `riasec_code` returned by
`classify_job` has exactly 3 characters, each drawn from `R,I,A,S,E,C`. -/
theorem c1_classify_code_three_letters (fw : Framework)
    (skills_text job_title job_link : PyStr)
    (_hfw : ∀ p ∈ fw.riasec_types, p.1 ∈ riasecString) :
    (classify_job fw skills_text job_title job_link).riasec_code.length = 3
    ∧ ∀ c ∈ (classify_job fw skills_text job_title job_link).riasec_code,
        c ∈ riasecString := by
  exact determine_code_spec _

/-- Witness for C1: the loaded framework's letters lie in the alphabet and
a concrete classification indeed yields a 3-letter alphabet code. -/
theorem c1_witness :
    (∀ p ∈ FRAMEWORK.riasec_types, p.1 ∈ riasecString)
    ∧ ((classify_job FRAMEWORK (pstr ("sql")) [] []).riasec_code.length = 3
      ∧ ∀ c ∈ (classify_job FRAMEWORK (pstr ("sql")) [] []).riasec_code,
          c ∈ riasecString) :=
  ⟨by decide, c1_classify_code_three_letters FRAMEWORK (pstr ("sql")) [] []
    (by decide)⟩

lemma sortQDesc_head_max :
    ∀ (l : List ℚ), l ≠ [] →
      ∃ m rest, sortQDesc l = m :: rest ∧ m ∈ l ∧ ∀ x ∈ l, x ≤ m := by
  intro l
  induction l with
  | nil => intro h; exact absurd rfl h
  | cons a t ih =>
    intro _
    by_cases ht : t = []
    · subst ht
      exact ⟨a, [], rfl, List.mem_cons_self _ _, by
        intro x hx
        rcases List.mem_cons.mp hx with rfl | hx
        · exact le_rfl
        · cases hx⟩
    · obtain ⟨m, rest, heq, hmem, hmax⟩ := ih ht
      have hstep : sortQDesc (a :: t) = insertQDesc a (sortQDesc t) := rfl
      rw [hstep, heq, insertQDesc]
      by_cases h : a < m
      · rw [if_pos h]
        refine ⟨m, insertQDesc a rest, rfl, List.mem_cons_of_mem _ hmem, ?_⟩
        intro x hx
        rcases List.mem_cons.mp hx with rfl | hx
        · exact le_of_lt h
        · exact hmax x hx
      · rw [if_neg h]
        refine ⟨a, m :: rest, rfl, List.mem_cons_self _ _, ?_⟩
        intro x hx
        rcases List.mem_cons.mp hx with rfl | hx
        · exact le_rfl
        · exact (hmax x hx).trans (le_of_not_lt h)

lemma le_topScore (scores : Char → ℚ) :
    ∀ c ∈ riasecString, scores c ≤ topScore scores := by
  intro c hc
  fin_cases hc
  · exact le_max_left _ _
  · exact (le_max_left _ _).trans (le_max_right _ _)
  · exact ((le_max_left _ _).trans (le_max_right _ _)).trans (le_max_right _ _)
  · exact (((le_max_left _ _).trans (le_max_right _ _)).trans
      (le_max_right _ _)).trans (le_max_right _ _)
  · exact ((((le_max_left _ _).trans (le_max_right _ _)).trans
      (le_max_right _ _)).trans (le_max_right _ _)).trans (le_max_right _ _)
  · exact ((((le_max_right _ _).trans (le_max_right _ _)).trans
      (le_max_right _ _)).trans (le_max_right _ _)).trans (le_max_right _ _)

lemma topScore_mem (scores : Char → ℚ) :
    topScore scores ∈ riasecString.map scores := by
  have hmix : ∀ a b : ℚ, a ∈ riasecString.map scores →
      b ∈ riasecString.map scores → max a b ∈ riasecString.map scores := by
    intro a b ha hb
    rcases max_choice a b with h | h <;> rw [h] <;> assumption
  have hm : ∀ c ∈ riasecString, scores c ∈ riasecString.map scores :=
    fun c hc => List.mem_map_of_mem scores hc
  exact hmix _ _ (hm 'R' (by decide)) (hmix _ _ (hm 'I' (by decide))
    (hmix _ _ (hm 'A' (by decide)) (hmix _ _ (hm 'S' (by decide))
      (hmix _ _ (hm 'E' (by decide)) (hm 'C' (by decide))))))

lemma sortQDesc_headD_topScore (scores : Char → ℚ) :
    (sortQDesc (riasecString.map scores)).headD 0 = topScore scores := by
  obtain ⟨m, rest, heq, hmem, hmax⟩ :=
    sortQDesc_head_max (riasecString.map scores) (by simp [riasecString])
  rw [heq, List.headD_cons]
  apply le_antisymm
  · rcases List.mem_map.mp hmem with ⟨c, hc, rfl⟩
    exact le_topScore scores c hc
  · exact hmax _ (topScore_mem scores)

lemma calculate_confidence_formula (scores : Char → ℚ) :
    calculate_confidence scores =
      if (riasecString.map scores).sum = 0 then 0
      else min (0.6 * (topScore scores / (riasecString.map scores).sum)
        + 0.4 * min ((riasecString.map scores).sum / 10) 1) 1 := by
  simp only [calculate_confidence]
  by_cases h : (riasecString.map scores).sum = 0
  · rw [if_pos h, if_pos h]
  · rw [if_neg h, if_neg h, sortQDesc_headD_topScore]
    congr 1
    ring

lemma calculate_confidence_bounds (scores : Char → ℚ)
    (h : ∀ c ∈ riasecString, 0 ≤ scores c) :
    0 ≤ calculate_confidence scores ∧ calculate_confidence scores ≤ 1 := by
  rw [calculate_confidence_formula]
  by_cases h0 : (riasecString.map scores).sum = 0
  · rw [if_pos h0]
    norm_num
  · rw [if_neg h0]
    have hnn : ∀ x ∈ riasecString.map scores, 0 ≤ x := by
      intro x hx
      rcases List.mem_map.mp hx with ⟨c, hc, rfl⟩
      exact h c hc
    have htot : 0 < (riasecString.map scores).sum :=
      lt_of_le_of_ne (List.sum_nonneg hnn) (Ne.symm h0)
    have htop0 : 0 ≤ topScore scores :=
      le_trans (h 'R' (by decide)) (le_topScore scores 'R' (by decide))
    have h1 : 0 ≤ topScore scores / (riasecString.map scores).sum :=
      div_nonneg htop0 htot.le
    have h2 : 0 ≤ min ((riasecString.map scores).sum / 10) 1 :=
      le_min (div_nonneg htot.le (by norm_num)) (by norm_num)
    refine ⟨le_min (by nlinarith) (by norm_num), min_le_right _ _⟩

lemma strongStep_fst_le (combined title_text : PyStr) (acc : ℚ × List PyStr)
    (skill : PyStr) : acc.1 ≤ (strongStep combined title_text acc skill).1 := by
  have hs : (0:ℚ) ≤ STRONG_INDICATOR_WEIGHT := by norm_num [STRONG_INDICATOR_WEIGHT]
  have ht : (0:ℚ) ≤ TITLE_BONUS_WEIGHT := by norm_num [TITLE_BONUS_WEIGHT]
  simp only [strongStep]
  split
  · show acc.1 ≤ acc.1 + STRONG_INDICATOR_WEIGHT
      + (if isSubstrB (pyLower skill) title_text then TITLE_BONUS_WEIGHT else 0)
    split
    · linarith
    · linarith
  · exact le_rfl

lemma moderateStep_fst_le (combined : PyStr) (acc : ℚ × List PyStr)
    (skill : PyStr) : acc.1 ≤ (moderateStep combined acc skill).1 := by
  have hw : (0:ℚ) ≤ MODERATE_INDICATOR_WEIGHT := by
    norm_num [ MODERATE_INDICATOR_WEIGHT]
  simp only [moderateStep]
  split
  · split
    · exact le_rfl
    · show acc.1 ≤ acc.1 + MODERATE_INDICATOR_WEIGHT
      linarith
  · exact le_rfl

lemma keywordStep_fst_le (combined : PyStr) (strong moderate : List PyStr)
    (acc : ℚ × List PyStr) (keyword : PyStr) :
    acc.1 ≤ (keywordStep combined strong moderate acc keyword).1 := by
  have hk : (0:ℚ) ≤ KEYWORD_WEIGHT := by norm_num [KEYWORD_WEIGHT]
  simp only [keywordStep]
  split
  · show acc.1 ≤ acc.1 + KEYWORD_WEIGHT
    linarith
  · exact le_rfl

lemma foldl_fst_mono {α : Type} (f : (ℚ × List PyStr) → α → (ℚ × List PyStr))
    (hf : ∀ a x, a.1 ≤ (f a x).1) :
    ∀ (l : List α) (init : ℚ × List PyStr), init.1 ≤ (l.foldl f init).1 := by
  intro l
  induction l with
  | nil => intro init; exact le_rfl
  | cons a t ih => intro init; exact (hf init a).trans (ih (f init a))

lemma scoreCategory_fst_le (combined title_text : PyStr)
    (init : ℚ × List PyStr) (td : RiasecType) :
    init.1 ≤ (scoreCategory combined title_text init td).1 := by
  rw [scoreCategory]
  refine le_trans ?_ (foldl_fst_mono _ (keywordStep_fst_le combined _ _) _ _)
  refine le_trans ?_ (foldl_fst_mono _ (moderateStep_fst_le combined) _ _)
  exact foldl_fst_mono _ (strongStep_fst_le combined title_text) _ _

lemma calc_scores_fold_nonneg (combined title_text : PyStr) :
    ∀ (l : List (Char × RiasecType)) (acc : (Char → ℚ) × (Char → List PyStr)),
      (∀ c, 0 ≤ acc.1 c) →
      ∀ c, 0 ≤ (l.foldl
        (fun (acc : (Char → ℚ) × (Char → List PyStr)) (p : Char × RiasecType) =>
          let r := scoreCategory combined title_text (acc.1 p.1, acc.2 p.1) p.2
          ((fun c => if c = p.1 then r.1 else acc.1 c),
           (fun c => if c = p.1 then r.2 else acc.2 c))) acc).1 c := by
  intro l
  induction l with
  | nil => intro acc hacc c; exact hacc c
  | cons p t ih =>
    intro acc hacc c
    refine ih _ ?_ c
    intro d
    by_cases hd : d = p.1
    · simp only [hd, if_pos rfl]
      exact le_trans (hacc p.1)
        (scoreCategory_fst_le combined title_text (acc.1 p.1, acc.2 p.1) p.2)
    · simp only [if_neg hd]
      exact hacc d

lemma calculate_riasec_scores_nonneg (fw : Framework)
    (skills_text job_title : PyStr) :
    ∀ c, 0 ≤ (calculate_riasec_scores fw skills_text job_title).1 c := by
  simp only [calculate_riasec_scores]
  exact calc_scores_fold_nonneg _ _ fw.riasec_types _ (fun _ => le_rfl)

lemma pyRound3_bounds {x : ℚ} (h0 : 0 ≤ x) (h1 : x ≤ 1) :
    0 ≤ pyRound3 x ∧ pyRound3 x ≤ 1 := by
  simp only [pyRound3]
  have hy0 : (0:ℚ) ≤ x * 1000 := by linarith
  have hy1 : x * 1000 ≤ 1000 := by linarith
  have hfle : ((Int.floor (x * 1000) : ℤ) : ℚ) ≤ x * 1000 := Int.floor_le _
  have hf0 : (0:ℤ) ≤ Int.floor (x * 1000) := Int.floor_nonneg.mpr hy0
  have hf1 : Int.floor (x * 1000) ≤ 1000 := by
    have h := Int.floor_mono hy1
    simpa using h
  have key : ∀ n : ℤ, 0 ≤ n → n ≤ 1000 → 0 ≤ (n:ℚ) / 1000 ∧ (n:ℚ) / 1000 ≤ 1 := by
    intro n hn0 hn1
    constructor
    · positivity
    · rw [div_le_one (by norm_num)]
      exact_mod_cast hn1
  split_ifs with ha hb hc
  · exact key _ hf0 hf1
  · refine key _ (by omega) ?_
    have hlt : ((Int.floor (x * 1000) : ℤ) : ℚ) < 1000 - 1/2 := by linarith
    have : (Int.floor (x * 1000) : ℤ) < 1000 := by
      have h2 : ((Int.floor (x * 1000) : ℤ) : ℚ) < ((1000 : ℤ) : ℚ) := by
        push_cast
        linarith
      exact_mod_cast h2
    omega
  · exact key _ hf0 hf1
  · refine key _ (by omega) ?_
    have heq : x * 1000 - (Int.floor (x * 1000) : ℚ) = 1/2 := le_antisymm
      (le_of_not_lt hb) (le_of_not_lt ha)
    have : (Int.floor (x * 1000) : ℤ) < 1000 := by
      have h2 : ((Int.floor (x * 1000) : ℤ) : ℚ) < ((1000 : ℤ) : ℚ) := by
        push_cast
        linarith
      exact_mod_cast h2
    omega

/-- Claim C2: `calculate_confidence` is zero exactly when the total score is
zero and otherwise equals `min(0.6*(top/total) + 0.4*min(total/10, 1), 1)`,
and the confidence field returned by `classify_job` (the rounded value)
always lies in `[0, 1]`. -/
theorem c2_confidence_formula_and_range :
    (∀ scores : Char → ℚ, calculate_confidence scores =
      if (riasecString.map scores).sum = 0 then 0
      else min (0.6 * (topScore scores / (riasecString.map scores).sum)
        + 0.4 * min ((riasecString.map scores).sum / 10) 1) 1)
    ∧ ∀ fw skills_text job_title job_link,
        0 ≤ (classify_job fw skills_text job_title job_link).confidence
        ∧ (classify_job fw skills_text job_title job_link).confidence ≤ 1 := by
  refine ⟨calculate_confidence_formula, ?_⟩
  intro fw skills_text job_title job_link
  have hnn := calculate_riasec_scores_nonneg fw skills_text
    (if job_title = [] ∧ job_link ≠ [] then extract_title_from_url job_link
      else job_title)
  have hb := calculate_confidence_bounds
    (calculate_riasec_scores fw skills_text
      (if job_title = [] ∧ job_link ≠ [] then extract_title_from_url job_link
        else job_title)).1 (fun c _ => hnn c)
  exact pyRound3_bounds hb.1 hb.2

lemma strongFold_spec (combined title_text : PyStr) :
    ∀ (strong : List PyStr) (init : ℚ × List PyStr),
      (strong.foldl (strongStep combined title_text) init).1
        = init.1 + (strong.map (fun s =>
            if isSubstrB (pyLower s) combined = true then
              STRONG_INDICATOR_WEIGHT
                + (if isSubstrB (pyLower s) title_text = true then
                    TITLE_BONUS_WEIGHT else 0)
            else 0)).sum
      ∧ (strong.foldl (strongStep combined title_text) init).2
        = init.2 ++ (strong.filter
            (fun s => isSubstrB (pyLower s) combined)).map
            (fun s => s ++ pstr ("(+3.0)")) := by
  intro strong
  induction strong with
  | nil => intro init; simp
  | cons a t ih =>
    intro init
    have hfold : (a :: t).foldl (strongStep combined title_text) init
        = t.foldl (strongStep combined title_text)
            (strongStep combined title_text init a) := rfl
    rw [hfold]
    obtain ⟨ih1, ih2⟩ := ih (strongStep combined title_text init a)
    by_cases h : isSubstrB (pyLower a) combined = true
    · have hstep : strongStep combined title_text init a
          = (init.1 + STRONG_INDICATOR_WEIGHT
              + (if isSubstrB (pyLower a) title_text = true then
                  TITLE_BONUS_WEIGHT else 0),
             init.2 ++ [a ++ pstr ("(+3.0)")]) := by
        simp only [strongStep, if_pos h]
      constructor
      · rw [ih1, hstep, List.map_cons, List.sum_cons, if_pos h]
        ring
      · rw [ih2, hstep, List.filter_cons, if_pos h, List.map_cons,
          List.append_assoc]
        rfl
    · have hstep : strongStep combined title_text init a = init := by
        simp only [strongStep, if_neg h]
      constructor
      · rw [ih1, hstep, List.map_cons, List.sum_cons, if_neg h]
        ring
      · rw [ih2, hstep, List.filter_cons, if_neg (by simpa using h)]

lemma strongFold_matched_mem (combined title_text : PyStr)
    (strong : List PyStr) (init : ℚ × List PyStr) (skill : PyStr)
    (hmem : skill ∈ strong) (hmatch : isSubstrB (pyLower skill) combined = true) :
    (skill ++ pstr ("(+3.0)"))
      ∈ (strong.foldl (strongStep combined title_text) init).2 := by
  rw [(strongFold_spec combined title_text strong init).2]
  refine List.mem_append_right _ ?_
  exact List.mem_map_of_mem _ (List.mem_filter.mpr ⟨hmem, hmatch⟩)

lemma isPrefixB_append_self : ∀ (a b : PyStr), isPrefixB a (a ++ b) = true := by
  intro a
  induction a with
  | nil => intro b; rfl
  | cons c t ih =>
    intro b
    simp only [List.cons_append, isPrefixB, beq_self_eq_true, Bool.true_and]
    exact ih b

lemma isSubstrB_append_self (a b : PyStr) : isSubstrB a (a ++ b) = true := by
  cases h : a ++ b with
  | nil =>
    rcases List.append_eq_nil.mp h with ⟨rfl, rfl⟩
    rfl
  | cons c t =>
    have hstep : isSubstrB a (c :: t) = (isPrefixB a (c :: t) || isSubstrB a t) := rfl
    rw [hstep, ← h, isPrefixB_append_self]
    rfl

/-- Claim C4 (amended): a moderate-tier phrase occurring in the combined
text is counted (score `+1.5`, one trace entry) if and only if its lowered
form is not a substring of any already-recorded match entry of the
category — where the recorded entries are the strong-tier matches and the
earlier moderate matches, each stored as `phrase(+weight)`; consequently a
phrase that is also a matching strong indicator of the same category is
never counted again by the moderate pass (it stays scored once, at strong
weight 3.0). -/
theorem c4_amended_moderate_dedup :
    (∀ (combined : PyStr) (acc : ℚ × List PyStr) (skill : PyStr),
      ((moderateStep combined acc skill).1 = acc.1 + MODERATE_INDICATOR_WEIGHT
        ∧ (moderateStep combined acc skill).2
            = acc.2 ++ [skill ++ pstr ("(+1.5)")])
      ↔ (isSubstrB (pyLower skill) combined = true
        ∧ ¬ ∃ m ∈ acc.2, isSubstrB (pyLower skill) (pyLower m) = true))
    ∧ ∀ (combined title_text : PyStr) (strong : List PyStr)
        (init : ℚ × List PyStr) (phrase : PyStr),
        phrase ∈ strong → isSubstrB (pyLower phrase) combined = true →
        moderateStep combined
            (strong.foldl (strongStep combined title_text) init) phrase
          = strong.foldl (strongStep combined title_text) init := by
  have hM : (MODERATE_INDICATOR_WEIGHT : ℚ) ≠ 0 := by
    norm_num [ MODERATE_INDICATOR_WEIGHT]
  constructor
  · intro combined acc skill
    by_cases h1 : isSubstrB (pyLower skill) combined = true
    · by_cases h2 : (acc.2.any fun m => isSubstrB (pyLower skill) (pyLower m))
          = true
      · have hid : moderateStep combined acc skill = acc := by
          simp only [moderateStep, h1, h2, if_pos rfl, if_true]
        apply iff_of_false
        · intro hc
          rw [hid] at hc
          exact hM (by linarith [hc.1])
        · intro hc
          rcases List.any_eq_true.mp h2 with ⟨m, hm, hsub⟩
          exact hc.2 ⟨m, hm, hsub⟩
      · have hid : moderateStep combined acc skill
            = (acc.1 + MODERATE_INDICATOR_WEIGHT,
               acc.2 ++ [skill ++ pstr ("(+1.5)")]) := by
          simp [moderateStep, h1, h2]
        apply iff_of_true
        · rw [hid]
          exact ⟨rfl, rfl⟩
        · refine ⟨h1, ?_⟩
          intro ⟨m, hm, hsub⟩
          exact h2 (List.any_eq_true.mpr ⟨m, hm, hsub⟩)
    · have hid : moderateStep combined acc skill = acc := by
        simp [moderateStep, h1]
      apply iff_of_false
      · intro hc
        rw [hid] at hc
        exact hM (by linarith [hc.1])
      · intro hc
        exact h1 hc.1
  · intro combined title_text strong init phrase hmem hmatch
    have hentry := strongFold_matched_mem combined title_text strong init
      phrase hmem hmatch
    have hsub : isSubstrB (pyLower phrase)
        (pyLower (phrase ++ pstr ("(+3.0)"))) = true := by
      simp only [pyLower, List.map_append]
      exact isSubstrB_append_self _ _
    have hany : ((strong.foldl (strongStep combined title_text) init).2.any
        fun m => isSubstrB (pyLower phrase) (pyLower m)) = true :=
      List.any_eq_true.mpr ⟨_, hentry, hsub⟩
    simp only [moderateStep, hmatch, hany, if_pos rfl, if_true]

set_option maxRecDepth 10000 in
/-- Counterexample to claim C4 as stated: with the loaded framework and
skills text `content creation`, the moderate phrase `content` of category
A occurs in the combined text and is not itself among the recorded
strong-tier match phrases (the only recorded match is `content creation`),
yet it is not counted: the A score stays at the strong weight 3.0 and the
trace holds the single strong entry. -/
theorem c4_counterexample :
    (calculate_riasec_scores FRAMEWORK (pstr ("content creation")) []).1 'A'
        = STRONG_INDICATOR_WEIGHT
    ∧ (calculate_riasec_scores FRAMEWORK (pstr ("content creation")) []).2 'A'
        = [pstr ("content creation(+3.0)")]
    ∧ (pstr ("content")) ∈ embA.moderate
    ∧ isSubstrB (pyLower (pstr ("content")))
        (normalize_text ([] ++ [' '] ++ pstr ("content creation"))) = true
    ∧ ¬ (pstr ("content")) ∈ [pstr ("content creation")] := by
  refine ⟨by with_unfolding_all decide, by with_unfolding_all decide,
    by decide, by decide, by decide⟩

/-- Witness for the amended C4: a phrase present in the strong list and
matching the combined text is left untouched by its moderate-pass step. -/
theorem c4_witness :
    (pstr ("content creation")) ∈ embA.strong
    ∧ isSubstrB (pyLower (pstr ("content creation")))
        (pstr ("content creation")) = true
    ∧ moderateStep (pstr ("content creation"))
        (embA.strong.foldl
          (strongStep (pstr ("content creation")) []) (0, []))
        (pstr ("content creation"))
      = embA.strong.foldl
          (strongStep (pstr ("content creation")) []) (0, []) :=
  ⟨by decide, by decide,
    c4_amended_moderate_dedup.2 (pstr ("content creation")) []
      embA.strong (0, []) (pstr ("content creation")) (by decide) (by decide)⟩

/-- Claim C7: over the strong-indicator loop, every phrase that occurs in
the combined text contributes its summand to the same category accumulator
and exactly one trace entry, and the summand of a phrase that also occurs
in the title text is `3.0 + 2.0 = 5.0` — the title bonus is cumulative with
the base strong weight and produces no extra trace entry. -/
theorem c7_title_bonus_cumulative (combined title_text : PyStr)
    (strong : List PyStr) (init : ℚ × List PyStr) :
    (strong.foldl (strongStep combined title_text) init).1
      = init.1 + (strong.map (fun s =>
          if isSubstrB (pyLower s) combined = true then
            STRONG_INDICATOR_WEIGHT
              + (if isSubstrB (pyLower s) title_text = true then
                  TITLE_BONUS_WEIGHT else 0)
          else 0)).sum
    ∧ (strong.foldl (strongStep combined title_text) init).2
      = init.2 ++ (strong.filter
          (fun s => isSubstrB (pyLower s) combined)).map
          (fun s => s ++ pstr ("(+3.0)"))
    ∧ ∀ s : PyStr, isSubstrB (pyLower s) combined = true →
        isSubstrB (pyLower s) title_text = true →
        (if isSubstrB (pyLower s) combined = true then
            STRONG_INDICATOR_WEIGHT
              + (if isSubstrB (pyLower s) title_text = true then
                  TITLE_BONUS_WEIGHT else 0)
          else 0) = 5 := by
  refine ⟨(strongFold_spec combined title_text strong init).1,
    (strongFold_spec combined title_text strong init).2, ?_⟩
  intro s h1 h2
  rw [if_pos h1, if_pos h2]
  norm_num [STRONG_INDICATOR_WEIGHT, TITLE_BONUS_WEIGHT]

/-- Witness for C7: the strong indicator `SQL` matching both the combined
text and the title text contributes exactly 5 points. -/
theorem c7_witness :
    isSubstrB (pyLower (pstr ("SQL"))) (pstr ("sql")) = true
    ∧ (if isSubstrB (pyLower (pstr ("SQL"))) (pstr ("sql")) = true then
          STRONG_INDICATOR_WEIGHT
            + (if isSubstrB (pyLower (pstr ("SQL"))) (pstr ("sql")) = true then
                TITLE_BONUS_WEIGHT else 0)
        else 0) = 5 :=
  ⟨by decide,
    (c7_title_bonus_cumulative (pstr ("sql")) (pstr ("sql")) [pstr ("SQL")]
      (0, [])).2.2 (pstr ("SQL")) (by decide) (by decide)⟩

lemma sum_map_update (scores : Char → ℚ) (l0 : Char) (δ : ℚ) :
    ∀ (l : List Char), l.Nodup → l0 ∈ l →
      (l.map (fun c => if c = l0 then scores l0 + δ else scores c)).sum
        = (l.map scores).sum + δ := by
  intro l
  induction l with
  | nil => intro _ h; cases h
  | cons a t ih =>
    intro hnd hmem
    simp only [List.map_cons, List.sum_cons]
    by_cases ha : a = l0
    · subst ha
      have hnot : ∀ c ∈ t, ¬ (c = a) := by
        intro c hc hca
        exact (List.nodup_cons.mp hnd).1 (hca ▸ hc)
      have hcongr : t.map (fun c => if c = a then scores a + δ else scores c)
          = t.map scores :=
        List.map_congr_left (fun c hc => if_neg (hnot c hc))
      rw [if_pos rfl, hcongr]
      ring
    · rcases List.mem_cons.mp hmem with h | hmem
      · exact absurd h.symm ha
      · rw [if_neg ha, ih (List.nodup_cons.mp hnd).2 hmem]
        ring

lemma topScore_update (scores : Char → ℚ) (l0 : Char) (δ : ℚ)
    (hmem : l0 ∈ riasecString) (hδ : 0 ≤ δ)
    (htop : ∀ c ∈ riasecString, scores c ≤ scores l0) :
    topScore (fun c => if c = l0 then scores l0 + δ else scores c)
      = scores l0 + δ := by
  apply le_antisymm
  · rcases List.mem_map.mp
      (topScore_mem (fun c => if c = l0 then scores l0 + δ else scores c))
      with ⟨c, hc, heq⟩
    rw [← heq]
    show (if c = l0 then scores l0 + δ else scores c) ≤ scores l0 + δ
    by_cases h : c = l0
    · rw [if_pos h]
    · rw [if_neg h]
      exact (htop c hc).trans (by linarith)
  · have h := le_topScore (fun c => if c = l0 then scores l0 + δ else scores c)
      l0 hmem
    simpa using h

lemma topScore_eq_self (scores : Char → ℚ) (l0 : Char)
    (hmem : l0 ∈ riasecString)
    (htop : ∀ c ∈ riasecString, scores c ≤ scores l0) :
    topScore scores = scores l0 := by
  apply le_antisymm
  · rcases List.mem_map.mp (topScore_mem scores) with ⟨c, hc, heq⟩
    rw [← heq]
    exact htop c hc
  · exact le_topScore scores l0 hmem

/-- Claim C9: confidence is monotone in the dominant category's score —
for nonnegative score vectors with nonzero total, adding `δ ≥ 0` to the top
category's score while holding the other scores fixed does not decrease the
computed confidence. -/
theorem c9_confidence_monotone (scores : Char → ℚ) (l0 : Char) (δ : ℚ)
    (hmem : l0 ∈ riasecString)
    (hnn : ∀ c ∈ riasecString, 0 ≤ scores c)
    (htop : ∀ c ∈ riasecString, scores c ≤ scores l0)
    (hsum : (riasecString.map scores).sum ≠ 0)
    (hδ : 0 ≤ δ) :
    calculate_confidence scores
      ≤ calculate_confidence
          (fun c => if c = l0 then scores l0 + δ else scores c) := by
  have hnn' : ∀ x ∈ riasecString.map scores, 0 ≤ x := by
    intro x hx
    rcases List.mem_map.mp hx with ⟨c, hc, rfl⟩
    exact hnn c hc
  have hT : 0 < (riasecString.map scores).sum :=
    lt_of_le_of_ne (List.sum_nonneg hnn') (Ne.symm hsum)
  have hmT : scores l0 ≤ (riasecString.map scores).sum :=
    List.single_le_sum hnn' _ (List.mem_map_of_mem scores hmem)
  have hsum' : (riasecString.map
      (fun c => if c = l0 then scores l0 + δ else scores c)).sum
      = (riasecString.map scores).sum + δ :=
    sum_map_update scores l0 δ riasecString (by decide) hmem
  have hT' : 0 < (riasecString.map scores).sum + δ := by linarith
  rw [calculate_confidence_formula, calculate_confidence_formula, hsum',
    if_neg hsum, if_neg (ne_of_gt hT'),
    topScore_update scores l0 δ hmem hδ htop, topScore_eq_self scores l0 hmem htop]
  apply min_le_min _ le_rfl
  apply add_le_add
  · apply mul_le_mul_of_nonneg_left _ (by norm_num)
    rw [div_le_div_iff₀ hT hT']
    nlinarith [mul_nonneg hδ (sub_nonneg.mpr hmT)]
  · apply mul_le_mul_of_nonneg_left _ (by norm_num)
    apply min_le_min _ le_rfl
    linarith

/-- Witness for C9 at a concrete score vector with top category `I`. -/
theorem c9_witness :
    ('I' ∈ riasecString)
    ∧ (∀ c ∈ riasecString,
        (0:ℚ) ≤ (fun c => if c = 'I' then (3:ℚ) else 0) c)
    ∧ (∀ c ∈ riasecString,
        (fun c => if c = 'I' then (3:ℚ) else 0) c
          ≤ (fun c => if c = 'I' then (3:ℚ) else 0) 'I')
    ∧ ((riasecString.map (fun c => if c = 'I' then (3:ℚ) else 0)).sum ≠ 0)
    ∧ ((0:ℚ) ≤ 2)
    ∧ calculate_confidence (fun c => if c = 'I' then (3:ℚ) else 0)
        ≤ calculate_confidence
            (fun c => if c = 'I' then
                (fun c => if c = 'I' then (3:ℚ) else 0) 'I' + 2
              else (fun c => if c = 'I' then (3:ℚ) else 0) c) :=
  ⟨by decide, by with_unfolding_all decide, by with_unfolding_all decide,
    by with_unfolding_all decide, by with_unfolding_all decide,
    c9_confidence_monotone (fun c => if c = 'I' then (3:ℚ) else 0) 'I' 2
      (by decide) (by with_unfolding_all decide)
      (by with_unfolding_all decide) (by with_unfolding_all decide)
      (by with_unfolding_all decide)⟩

lemma pipelineLoop_spec (rows : List BatchTuple) (ht : Bool) (bs : Nat)
    (hbs : 1 ≤ bs) :
    ∀ (fuel processed : Nat), rows.length - processed ≤ fuel →
      pipelineLoop rows ht rows.length bs processed fuel
        = process_batch (rows.drop processed) ht := by
  intro fuel
  induction fuel with
  | zero =>
    intro processed h
    have hge : rows.length ≤ processed := by omega
    rw [List.drop_eq_nil_of_le hge]
    rfl
  | succ fuel ih =>
    intro processed h
    simp only [pipelineLoop]
    by_cases hp : processed < rows.length
    · rw [if_pos hp]
      have hlim1 : 1 ≤ min bs (rows.length - processed) :=
        le_min hbs (by omega)
      have hlimle : min bs (rows.length - processed)
          ≤ rows.length - processed := Nat.min_le_right _ _
      have hbatchlen : ((rows.drop processed).take
          (min bs (rows.length - processed))).length
          = min bs (rows.length - processed) := by
        rw [List.length_take, List.length_drop]
        omega
      rw [hbatchlen, ih (processed + min bs (rows.length - processed))
        (by omega)]
      have hdd : rows.drop (processed + min bs (rows.length - processed))
          = (rows.drop processed).drop (min bs (rows.length - processed)) := by
        rw [List.drop_drop]
      rw [hdd, process_batch, process_batch, process_batch,
        ← List.map_append, List.take_append_drop]
    · rw [if_neg hp]
      rw [List.drop_eq_nil_of_le (le_of_not_lt hp)]
      rfl

/-- Claim C6: for every selected source table of N rows and every window
size of at least one, the single-source pipeline classifies exactly the N
rows — the written output is the per-row classification of the whole
table, so the output row count equals the input row count. -/
theorem c6_row_count (rows : List BatchTuple) (ht : Bool) (bs : Nat)
    (hbs : 1 ≤ bs) :
    (process_csv_file (some rows) ht bs none).written
      = some (process_batch rows ht)
    ∧ (process_batch rows ht).length = rows.length := by
  constructor
  · simp only [process_csv_file]
    rw [pipelineLoop_spec rows ht bs hbs rows.length 0 (by omega),
      List.drop_zero]
  · exact List.length_map _ _

/-- Witness for C6: a two-row table processed with window size 1. -/
theorem c6_witness :
    1 ≤ 1
    ∧ ((process_csv_file
        (some [(pstr ("a"), pstr ("sql"), none),
               (pstr ("b"), pstr ("nursing"), none)]) false 1 none).written
      = some (process_batch
          [(pstr ("a"), pstr ("sql"), none),
           (pstr ("b"), pstr ("nursing"), none)] false)
    ∧ (process_batch
        [(pstr ("a"), pstr ("sql"), none),
         (pstr ("b"), pstr ("nursing"), none)] false).length
      = ([(pstr ("a"), pstr ("sql"), none),
          (pstr ("b"), pstr ("nursing"), none)] : List BatchTuple).length) :=
  ⟨le_rfl, c6_row_count
    [(pstr ("a"), pstr ("sql"), none), (pstr ("b"), pstr ("nursing"), none)]
    false 1 le_rfl⟩

/-- Counterexample to claim C8 as stated: on a source that exists but has
zero rows, the run does end in an error, but only after the (empty) result
set has been written to the destination — something is written, refuting
"fails before anything is written". -/
theorem c8_counterexample :
    (process_csv_file (some ([] : List BatchTuple)) false 1 none).errored = true
    ∧ (process_csv_file (some ([] : List BatchTuple)) false 1 none).written
        = some []
    ∧ (process_csv_file (some ([] : List BatchTuple)) false 1 none).written
        ≠ none := by
  refine ⟨rfl, rfl, ?_⟩
  intro h
  cases h

/-- Claim C8 (amended): a missing source fails before any windowing with
nothing written; a source with zero rows runs zero windows, writes the
empty result set to the destination, and only then fails, in the
reporting step. -/
theorem c8_amended_failure_semantics (ht : Bool) (bs : Nat)
    (ss : Option Nat) :
    process_csv_file none ht bs ss = { written := none, errored := true }
    ∧ process_csv_file (some []) ht bs ss
        = { written := some [], errored := true } := by
  constructor
  · rfl
  · cases ss with
    | none => rfl
    | some s =>
      simp only [process_csv_file, List.length_nil, Nat.zero_min]
      rfl

/-- Counterexample to claim C5 as stated: a single-source run over a table
with an extra `company` column produces rows whose columns are the fixed
seven of `process_batch` — the `company` passthrough column is dropped and
a fifth derived column `riasec_total_score`, beyond the four named by the
claim, is present. -/
theorem c5_counterexample :
    ((run_single_source
        [[(pstr ("job_link"), Value.vs (pstr ("x"))),
          (pstr ("job_skills"), Value.vs (pstr ("sql"))),
          (pstr ("company"), Value.vs (pstr ("acme")))]] 1 none).written.getD
        []).map (fun r => r.map Prod.fst) = [outputColumns]
    ∧ (pstr ("company")) ∈
        ([(pstr ("job_link"), Value.vs (pstr ("x"))),
          (pstr ("job_skills"), Value.vs (pstr ("sql"))),
          (pstr ("company"), Value.vs (pstr ("acme")))] : TblRow).map Prod.fst
    ∧ ¬ (pstr ("company")) ∈ outputColumns
    ∧ (pstr ("riasec_total_score")) ∈ outputColumns
    ∧ ¬ (pstr ("riasec_total_score")) ∈
        [pstr ("riasec_code"), pstr ("riasec_confidence"),
         pstr ("primary_riasec_type"), pstr ("extracted_title")] := by
  refine ⟨?_, by decide, by decide, by decide, by decide⟩
  rfl

/-- Claim C5 (amended): in single-source mode every output row carries
exactly the seven columns `job_link`, `job_skills`, `extracted_title`,
`riasec_code`, `riasec_confidence`, `primary_riasec_type`,
`riasec_total_score` — the selected link and skills values verbatim plus
five derived columns; additional input columns are not passed through. -/
theorem c5_amended_output_columns :
    (∀ (table : List TblRow) (bs : Nat), 1 ≤ bs →
      (run_single_source table bs none).written
        = some ((selectDefaultCols table).map (batchRow false)))
    ∧ ∀ t : BatchTuple,
        (batchRow false t).map Prod.fst = outputColumns
        ∧ (batchRow false t).lookup (pstr ("job_link")) = some (Value.vs t.1)
        ∧ (batchRow false t).lookup (pstr ("job_skills"))
            = some (Value.vs t.2.1) := by
  constructor
  · intro table bs hbs
    simp only [run_single_source, process_csv_file]
    rw [pipelineLoop_spec (selectDefaultCols table) false bs hbs
      (selectDefaultCols table).length 0 (by omega), List.drop_zero]
    rfl
  · intro t
    exact ⟨rfl, rfl, rfl⟩

/-- Witness for the amended C5: a concrete one-row single-source run. -/
theorem c5_witness :
    1 ≤ 1
    ∧ (run_single_source
        [[(pstr ("job_link"), Value.vs (pstr ("x"))),
          (pstr ("job_skills"), Value.vs (pstr ("sql")))]] 1 none).written
      = some ((selectDefaultCols
          [[(pstr ("job_link"), Value.vs (pstr ("x"))),
            (pstr ("job_skills"), Value.vs (pstr ("sql")))]]).map
          (batchRow false)) :=
  ⟨le_rfl, c5_amended_output_columns.1
    [[(pstr ("job_link"), Value.vs (pstr ("x"))),
      (pstr ("job_skills"), Value.vs (pstr ("sql")))]] 1 le_rfl⟩

lemma lookup_pair_mem : ∀ (l : List (Char × Char)) (c d : Char),
    l.lookup c = some d → (c, d) ∈ l := by
  intro l
  induction l with
  | nil => intro c d h; cases h
  | cons p t ih =>
    intro c d h
    rw [List.lookup] at h
    by_cases hc : (c == p.1) = true
    · rw [hc] at h
      have hcp : c = p.1 := by
        have := hc
        simp at this
        exact this
      have hd : p.2 = d := by
        simp at h
        exact h
      have hpd : (c, d) = p := by
        rw [hcp, ← hd]
      rw [hpd]
      exact List.mem_cons_self _ _
    · have hcf : (c == p.1) = false := by
        simpa using hc
      rw [hcf] at h
      exact List.mem_cons_of_mem _ (ih c d h)

lemma upperLower_value_clean :
    ∀ p ∈ upperLower, upperLower.lookup p.2 = none
      ∧ isWsB p.2 = false ∧ isSepB p.2 = false := by
  decide

lemma pyLowerChar_idem (c : Char) :
    pyLowerChar (pyLowerChar c) = pyLowerChar c := by
  cases h : upperLower.lookup c with
  | none => simp [pyLowerChar, h]
  | some d =>
    have hmem := lookup_pair_mem upperLower c d h
    have hd := (upperLower_value_clean (c, d) hmem).1
    simp [pyLowerChar, h, hd]

lemma mem_pyLower {c : Char} {l : PyStr} (h : c ∈ pyLower l) :
    pyLowerChar c = c := by
  rcases List.mem_map.mp h with ⟨a, _, rfl⟩
  exact pyLowerChar_idem a

lemma mem_sepSub {c : Char} {l : PyStr} (h : c ∈ sepSub l) :
    isSepB c = false ∧ (c = ' ' ∨ c ∈ l) := by
  rcases List.mem_map.mp h with ⟨a, ha, rfl⟩
  by_cases hs : isSepB a = true
  · rw [if_pos hs]
    exact ⟨by decide, Or.inl rfl⟩
  · rw [if_neg hs]
    exact ⟨by simpa using hs, Or.inr ha⟩

lemma mem_wsCollapseGo : ∀ (b : Bool) (l : PyStr) (c : Char),
    c ∈ wsCollapseGo b l → c = ' ' ∨ (c ∈ l ∧ isWsB c = false) := by
  intro b l
  induction l generalizing b with
  | nil => intro c h; cases h
  | cons d ds ih =>
    intro c h
    rw [wsCollapseGo] at h
    by_cases hw : isWsB d = true
    · rw [if_pos hw] at h
      by_cases hb : b = true
      · rw [if_pos hb] at h
        rcases ih true c h with h1 | h1
        · exact Or.inl h1
        · exact Or.inr ⟨List.mem_cons_of_mem _ h1.1, h1.2⟩
      · rw [if_neg hb] at h
        rcases List.mem_cons.mp h with rfl | h1
        · exact Or.inl rfl
        · rcases ih true c h1 with h2 | h2
          · exact Or.inl h2
          · exact Or.inr ⟨List.mem_cons_of_mem _ h2.1, h2.2⟩
    · rw [if_neg hw] at h
      rcases List.mem_cons.mp h with rfl | h1
      · exact Or.inr ⟨List.mem_cons_self _ _, by simpa using hw⟩
      · rcases ih false c h1 with h2 | h2
        · exact Or.inl h2
        · exact Or.inr ⟨List.mem_cons_of_mem _ h2.1, h2.2⟩

lemma mem_pyStrip {c : Char} {l : PyStr} (h : c ∈ pyStrip l) : c ∈ l := by
  rw [pyStrip] at h
  rw [List.mem_reverse] at h
  have h1 := (List.dropWhile_subset _) h
  rw [List.mem_reverse] at h1
  exact (List.dropWhile_subset _) h1

lemma wsCollapseGo_head_true : ∀ (l : PyStr) (c : Char),
    (wsCollapseGo true l).head? = some c → isWsB c = false := by
  intro l
  induction l with
  | nil => intro c h; cases h
  | cons d ds ih =>
    intro c h
    rw [wsCollapseGo] at h
    by_cases hw : isWsB d = true
    · rw [if_pos hw, if_pos rfl] at h
      exact ih c h
    · rw [if_neg hw] at h
      rw [List.head?_cons] at h
      injection h with h1
      rw [← h1]
      simpa using hw

lemma wsCollapseGo_chain : ∀ (l : PyStr) (b : Bool),
    List.Chain' notBothWs (wsCollapseGo b l) := by
  intro l
  induction l with
  | nil => intro b; simp [wsCollapseGo]
  | cons d ds ih =>
    intro b
    rw [wsCollapseGo]
    by_cases hw : isWsB d = true
    · rw [if_pos hw]
      by_cases hb : b = true
      · rw [if_pos hb]
        exact ih true
      · rw [if_neg hb]
        refine List.chain'_cons'.mpr ⟨?_, ih true⟩
        intro y hy
        have hyw := wsCollapseGo_head_true ds y hy
        intro hcon
        rw [hcon.2] at hyw
        cases hyw
    · rw [if_neg hw]
      refine List.chain'_cons'.mpr ⟨?_, ih false⟩
      intro y _
      intro hcon
      rw [hcon.1] at hw
      exact hw rfl

lemma chain_reverse_nbw {l : PyStr} (h : List.Chain' notBothWs l) :
    List.Chain' notBothWs l.reverse := by
  rw [List.chain'_reverse]
  exact h.imp (fun a b hab hcon => hab ⟨hcon.2, hcon.1⟩)

lemma pyStrip_chain {l : PyStr} (h : List.Chain' notBothWs l) :
    List.Chain' notBothWs (pyStrip l) := by
  rw [pyStrip]
  apply chain_reverse_nbw
  refine List.Chain'.suffix ?_ (List.dropWhile_suffix _)
  apply chain_reverse_nbw
  exact List.Chain'.suffix h (List.dropWhile_suffix _)

lemma prefix_head {l p : PyStr} {c : Char} (hp : p <+: l)
    (hc : p.head? = some c) : l.head? = some c := by
  rcases hp with ⟨t, rfl⟩
  cases p with
  | nil => cases hc
  | cons a as =>
    rw [List.head?_cons] at hc
    rw [List.cons_append, List.head?_cons]
    exact hc

lemma pyStrip_head {l : PyStr} {c : Char}
    (h : (pyStrip l).head? = some c) : isWsB c = false := by
  have hpre : pyStrip l <+: (l.dropWhile (fun d => isWsB d)) := by
    rw [pyStrip]
    have hsuf := List.dropWhile_suffix (l := (l.dropWhile
      (fun d => isWsB d)).reverse) (fun d => isWsB d)
    have := List.reverse_prefix.mpr hsuf
    rwa [List.reverse_reverse] at this
  have hhead := prefix_head hpre h
  have hnot := List.head?_dropWhile_not (fun d => isWsB d) l
  rw [hhead] at hnot
  exact hnot

lemma pyStrip_last {l : PyStr} {c : Char}
    (h : (pyStrip l).reverse.head? = some c) : isWsB c = false := by
  rw [pyStrip, List.reverse_reverse] at h
  have hnot := List.head?_dropWhile_not (fun d => isWsB d)
    (l.dropWhile (fun d => isWsB d)).reverse
  rw [h] at hnot
  exact hnot

lemma pyLower_fixed {u : PyStr} (h : ∀ c ∈ u, pyLowerChar c = c) :
    pyLower u = u := by
  rw [pyLower]
  have hc := List.map_congr_left (f := pyLowerChar) (g := id) (l := u)
    (fun c hc => h c hc)
  rw [hc, List.map_id]

lemma sepSub_fixed {u : PyStr} (h : ∀ c ∈ u, isSepB c = false) :
    sepSub u = u := by
  rw [sepSub]
  have hc := List.map_congr_left
    (f := fun c => if isSepB c then ' ' else c) (g := id) (l := u)
    (fun c hc => by
      show (if isSepB c then ' ' else c) = c
      rw [if_neg]
      rw [h c hc]
      exact Bool.false_ne_true)
  rw [hc, List.map_id]

lemma wsCollapseGo_fixed : ∀ (u : PyStr),
    (∀ c ∈ u, isWsB c = true → c = ' ') → List.Chain' notBothWs u →
    wsCollapseGo false u = u := by
  intro u
  induction u with
  | nil => intro _ _; rfl
  | cons c cs ih =>
    intro hchar hchain
    have hstep : wsCollapseGo false (c :: cs)
        = if isWsB c = true then ' ' :: wsCollapseGo true cs
          else c :: wsCollapseGo false cs := rfl
    by_cases hw : isWsB c = true
    · rw [hstep, if_pos hw]
      have hc : c = ' ' := hchar c (List.mem_cons_self _ _) hw
      rw [hc]
      cases cs with
      | nil => rfl
      | cons d ds =>
        have hcd : notBothWs c d :=
          (List.chain'_cons'.mp hchain).1 d rfl
        have hd : isWsB d = false := by
          cases hdw : isWsB d with
          | false => rfl
          | true => exact absurd ⟨hw, hdw⟩ hcd
        have hih := ih (fun x hx => hchar x (List.mem_cons_of_mem _ hx))
          (List.chain'_cons'.mp hchain).2
        have hstep3 : wsCollapseGo false (d :: ds)
            = if isWsB d = true then ' ' :: wsCollapseGo true ds
              else d :: wsCollapseGo false ds := rfl
        rw [hstep3, if_neg (by rw [hd]; exact Bool.false_ne_true)] at hih
        have hds : wsCollapseGo false ds = ds := by
          injection hih
        have hstep2 : wsCollapseGo true (d :: ds)
            = if isWsB d = true then wsCollapseGo true ds
              else d :: wsCollapseGo false ds := rfl
        rw [hstep2, if_neg (by rw [hd]; exact Bool.false_ne_true), hds]
    · rw [hstep, if_neg hw]
      rw [ih (fun x hx => hchar x (List.mem_cons_of_mem _ hx))
        (List.chain'_cons'.mp hchain).2]

lemma pyStrip_fixed {u : PyStr}
    (hhead : ∀ c, u.head? = some c → isWsB c = false)
    (hlast : ∀ c, u.reverse.head? = some c → isWsB c = false) :
    pyStrip u = u := by
  have h1 : u.dropWhile (fun d => isWsB d) = u := by
    cases u with
    | nil => rfl
    | cons a as =>
      have ha := hhead a rfl
      rw [List.dropWhile_cons_of_neg]
      rw [ha]
      exact Bool.false_ne_true
  rw [pyStrip, h1]
  have h2 : u.reverse.dropWhile (fun d => isWsB d) = u.reverse := by
    cases hu : u.reverse with
    | nil => rfl
    | cons a as =>
      have ha := hlast a (by rw [hu]; rfl)
      rw [List.dropWhile_cons_of_neg]
      rw [ha]
      exact Bool.false_ne_true
  rw [h2, List.reverse_reverse]

lemma normalize_props (t : PyStr) (h0 : ¬ t = []) :
    (∀ c ∈ normalize_text t, pyLowerChar c = c ∧ isSepB c = false
      ∧ (isWsB c = true → c = ' '))
    ∧ List.Chain' notBothWs (normalize_text t)
    ∧ (∀ c, (normalize_text t).head? = some c → isWsB c = false)
    ∧ (∀ c, (normalize_text t).reverse.head? = some c → isWsB c = false) := by
  have hv : normalize_text t
      = pyStrip (wsCollapseGo false (sepSub (pyLower t))) := by
    rw [normalize_text, if_neg h0]
    rfl
  refine ⟨?_, ?_, ?_, ?_⟩
  · intro c hc
    rw [hv] at hc
    have hc1 := mem_pyStrip hc
    rcases mem_wsCollapseGo false _ c hc1 with rfl | ⟨hc2, hcw⟩
    · exact ⟨by decide, by decide, fun _ => rfl⟩
    · obtain ⟨hsep, hor⟩ := mem_sepSub hc2
      rcases hor with rfl | hc3
      · exact ⟨by decide, by decide, fun _ => rfl⟩
      · refine ⟨mem_pyLower hc3, hsep, ?_⟩
        intro hcon
        rw [hcon] at hcw
        cases hcw
  · rw [hv]
    exact pyStrip_chain (wsCollapseGo_chain _ false)
  · intro c hc
    rw [hv] at hc
    exact pyStrip_head hc
  · intro c hc
    rw [hv] at hc
    exact pyStrip_last hc

/-- Claim C10: `normalize_text` is idempotent — its output contains no
upper-case letters, no separator characters, only single plain spaces as
whitespace and no leading or trailing whitespace, so normalizing a second
time changes nothing. -/
theorem c10_normalize_idempotent (t : PyStr) :
    normalize_text (normalize_text t) = normalize_text t := by
  by_cases h0 : t = []
  · rw [h0]
    rfl
  · by_cases hv0 : normalize_text t = []
    · rw [hv0]
      rfl
    · obtain ⟨hchars, hchain, hhead, hlast⟩ := normalize_props t h0
      rw [normalize_text, if_neg hv0]
      show pyStrip (wsCollapseGo false
        (sepSub (pyLower (normalize_text t)))) = normalize_text t
      rw [pyLower_fixed (fun c hc => (hchars c hc).1),
        sepSub_fixed (fun c hc => (hchars c hc).2.1),
        wsCollapseGo_fixed _ (fun c hc => (hchars c hc).2.2) hchain]
      exact pyStrip_fixed hhead hlast
